import Mathlib

/-
Verification of the vessel-maintenance document classification core
(`src/ai_processor.py`, class VesselMaintenanceAI).

Texts are modelled as `List Char` (the sequence of code points of a Python
`str`, restricted to ASCII behaviour for case conversion and character
classes).  Python float arithmetic on the small decimal constants used by
the scorer is modelled exactly by rational numbers `ℚ`.
-/

namespace VesselAI

/-! ### Substring containment (Python's `needle in haystack`) -/

/-- Boolean test that `p` is a prefix of the second list (character lists). -/
def startsList : List Char → List Char → Bool
  | [], _ => true
  | _ :: _, [] => false
  | a :: ps, b :: hs => a == b && startsList ps hs

/-- Boolean test that `p` occurs as a contiguous substring of the second
list; this is Python's `p in s` on strings (the empty pattern matches). -/
def hasSub (p : List Char) : List Char → Bool
  | [] => p.isEmpty
  | c :: rest => startsList p (c :: rest) || hasSub p rest

/-- ASCII lower-casing of a text, modelling Python's `str.lower()` on the
ASCII texts handled here. -/
def pyLower (s : List Char) : List Char := s.map Char.toLower

/-! ### Data model (`src/models.py`) -/

/-- `ClassificationType` from `models.py`, in declaration order. -/
inductive ClassificationType where
  | CriticalEquipmentFailure
  | NavigationalHazard
  | EnvironmentalCompliance
  | RoutineMaintenance
  | SafetyViolation
  | FuelEfficiency
deriving DecidableEq, Fintype, Repr

/-- `PriorityLevel` from `models.py`. -/
inductive PriorityLevel where
  | Critical
  | High
  | Medium
  | Low
deriving DecidableEq, Repr

/-- `DocumentType` from `models.py`. -/
inductive DocumentType where
  | MaintenanceRecord
  | SensorAlert
  | IncidentReport
  | InspectionReport
  | ComplianceDocument
deriving DecidableEq, Repr

/-! ### Pattern catalog (`_load_classification_patterns`) -/

/-- One entry of `self.patterns`: keyword list, equipment-term list,
priority-indicator list and the category weight. -/
structure PatternData where
  keywords : List String
  equipmentTerms : List String
  priorityIndicators : List String
  weight : ℚ

/-- The pattern catalog of `_load_classification_patterns`, verbatim. -/
def patterns : ClassificationType → PatternData
  | .CriticalEquipmentFailure =>
    { keywords := ["failure", "malfunction", "breakdown", "critical", "emergency",
        "shutdown", "stopped", "failed", "damage", "fault", "defect",
        "overheating", "overpressure", "leak", "crack", "broken"]
      equipmentTerms := ["engine", "generator", "pump", "motor", "turbine", "propeller",
        "steering", "rudder", "thruster", "boiler", "compressor"]
      priorityIndicators := ["critical", "emergency", "immediate", "urgent"]
      weight := 1.0 }
  | .NavigationalHazard =>
    { keywords := ["navigation", "gps", "radar", "compass", "position", "course",
        "collision", "grounding", "drift", "signal", "communication",
        "visibility", "weather", "storm", "fog", "ice"]
      equipmentTerms := ["gps", "radar", "compass", "autopilot", "ais", "ecdis",
        "gyrocompass", "speed log", "echo sounder"]
      priorityIndicators := ["hazard", "danger", "risk", "warning"]
      weight := 0.9 }
  | .EnvironmentalCompliance =>
    { keywords := ["spill", "discharge", "pollution", "emission", "waste",
        "environmental", "compliance", "violation", "regulation",
        "marpol", "ballast", "bilge", "oily", "sewage"]
      equipmentTerms := ["ballast", "sewage", "incinerator", "oily water separator",
        "scrubber", "monitoring system"]
      priorityIndicators := ["violation", "breach", "non-compliance"]
      weight := 0.8 }
  | .RoutineMaintenance =>
    { keywords := ["maintenance", "inspection", "service", "check", "test",
        "routine", "scheduled", "preventive", "calibration",
        "cleaning", "lubrication", "replacement"]
      equipmentTerms := ["filter", "oil", "coolant", "belt", "bearing", "gasket",
        "valve", "pipe", "hose", "cable"]
      priorityIndicators := ["scheduled", "routine", "preventive"]
      weight := 0.3 }
  | .SafetyViolation =>
    { keywords := ["safety", "violation", "accident", "injury", "hazard",
        "risk", "unsafe", "dangerous", "incident", "near miss",
        "ppe", "personal protective equipment"]
      equipmentTerms := ["life jacket", "fire extinguisher", "alarm", "detector",
        "emergency light", "safety valve"]
      priorityIndicators := ["unsafe", "violation", "accident"]
      weight := 0.7 }
  | .FuelEfficiency =>
    { keywords := ["fuel", "consumption", "efficiency", "economy", "performance",
        "optimization", "trim", "speed", "rpm", "load"]
      equipmentTerms := ["fuel system", "injection", "governor", "turbocharger",
        "fuel pump", "fuel filter"]
      priorityIndicators := ["efficiency", "optimization", "economy"]
      weight := 0.4 }

/-- Declaration (= dict insertion) order of the pattern catalog; this is
the iteration order of `self.patterns` in `_classify_document`. -/
def catalog : List ClassificationType :=
  [.CriticalEquipmentFailure, .NavigationalHazard, .EnvironmentalCompliance,
   .RoutineMaintenance, .SafetyViolation, .FuelEfficiency]

/-! ### Classifier (`_classify_document`) -/

/-- Number of terms of `terms` contained as substrings in the lowered text:
Python's `sum(1 for t in terms if t in text_lower)`. -/
def countMatches (terms : List String) (tl : List Char) : Nat :=
  (terms.filter (fun t => hasSub t.data tl)).length

/-- Per-category score of `_classify_document`: `score = 0`, then
`score += keyword_matches * 0.4`, `score += equipment_matches * 0.3`,
`score += priority_matches * 0.3`, finally `score *= weight`. -/
def categoryScore (tl : List Char) (c : ClassificationType) : ℚ :=
  ((countMatches (patterns c).keywords tl : ℚ) * 0.4
    + (countMatches (patterns c).equipmentTerms tl : ℚ) * 0.3
    + (countMatches (patterns c).priorityIndicators tl : ℚ) * 0.3)
    * (patterns c).weight

/-- Python's `max(iterable, key=f)` starting from current best `b`: the
running best is replaced only on a strictly greater key, so the first
element attaining the maximum wins. -/
def pyMaxBy {α β : Type} [LinearOrder β] (f : α → β) : α → List α → α
  | b, [] => b
  | b, c :: l => pyMaxBy f (if f b < f c then c else b) l

/-- `best_classification = max(scores.keys(), key=lambda k: scores[k])`
with the dict iterated in insertion (catalog) order. -/
def bestClassification (tl : List Char) : ClassificationType :=
  pyMaxBy (categoryScore tl) .CriticalEquipmentFailure
    [.NavigationalHazard, .EnvironmentalCompliance, .RoutineMaintenance,
     .SafetyViolation, .FuelEfficiency]

/-- `max_score = scores[best_classification]`. -/
def winningScore (tl : List Char) : ℚ := categoryScore tl (bestClassification tl)

/-- `total_score = sum(scores.values())`. -/
def totalScore (tl : List Char) : ℚ := (catalog.map (categoryScore tl)).sum

/-- `_classify_document`: lower the text, score every category, pick the
winner (`bestClassification`), compute
`confidence = max_score / total_score if total_score > 0 else 0.0`, and
fall back to `(ROUTINE_MAINTENANCE, 0.1)` whenever `max_score < 0.5`;
otherwise return `(best_classification, min(confidence, 1.0))`. -/
def classifyDocument (text : List Char) : ClassificationType × ℚ :=
  if winningScore (pyLower text) < 0.5 then (.RoutineMaintenance, 0.1)
  else (bestClassification (pyLower text),
    min (if 0 < totalScore (pyLower text)
          then winningScore (pyLower text) / totalScore (pyLower text)
          else 0) 1)

/-! ### A `ℕ`-scaled mirror of the scores, for concrete evaluation

All scores are integer multiples of `1/100`; `score100` is `100 *` the
category score, which the kernel can evaluate (rational normalization via
`Nat.gcd` does not reduce there). -/

/-- Ten times the category weight of the pattern catalog. -/
def weight10 : ClassificationType → ℕ
  | .CriticalEquipmentFailure => 10
  | .NavigationalHazard => 9
  | .EnvironmentalCompliance => 8
  | .RoutineMaintenance => 3
  | .SafetyViolation => 7
  | .FuelEfficiency => 4

/-- `100 * categoryScore`, as a natural number. -/
def score100 (tl : List Char) (c : ClassificationType) : ℕ :=
  (4 * countMatches (patterns c).keywords tl
    + 3 * countMatches (patterns c).equipmentTerms tl
    + 3 * countMatches (patterns c).priorityIndicators tl) * weight10 c


/-! ### Priority resolver (`_determine_priority`) -/

/-- Does any term of the list occur as a substring of the lowered text?
Python's `any(keyword in text_lower for keyword in keywords)`. -/
def anyTerm (terms : List String) (tl : List Char) : Bool :=
  terms.any (fun t => hasSub t.data tl)

/-- `critical_keywords` of `_determine_priority`. -/
def criticalKeywords : List String :=
  ["critical", "emergency", "immediate", "urgent", "danger",
   "failure", "shutdown", "stop", "collision", "fire", "flood"]

/-- `high_keywords` of `_determine_priority`. -/
def highKeywords : List String :=
  ["warning", "alert", "malfunction", "leak", "damage",
   "hazard", "risk", "violation", "non-compliance"]

/-- `medium_keywords` of `_determine_priority`. -/
def mediumKeywords : List String :=
  ["attention", "monitor", "check", "inspect", "service",
   "repair", "replace", "maintenance"]

/-- `_determine_priority`: the sequence of early returns of the Python
function, translated into a chain of conditionals in source order. -/
def determinePriority (text : List Char) (classification : ClassificationType) :
    PriorityLevel :=
  let tl := pyLower text
  if anyTerm criticalKeywords tl then .Critical
  else if classification = .CriticalEquipmentFailure then .Critical
  else if classification = .EnvironmentalCompliance then
    (if anyTerm ["spill", "discharge", "violation"] tl then .Critical else .High)
  else if classification = .NavigationalHazard then .High
  else if classification = .SafetyViolation then
    (if anyTerm ["accident", "injury"] tl then .High else .Medium)
  else if anyTerm highKeywords tl then .High
  else if anyTerm mediumKeywords tl then .Medium
  else .Low

/-- The layered first-match policy exactly as the specification words it:
urgent keywords first, then the four category overrides, then high
keywords, then medium keywords, then `Low`. -/
def resolvePrioritySpec (text : List Char) (classification : ClassificationType) :
    PriorityLevel :=
  let tl := pyLower text
  if anyTerm criticalKeywords tl then .Critical
  else
    match classification with
    | .CriticalEquipmentFailure => .Critical
    | .EnvironmentalCompliance =>
      if anyTerm ["spill", "discharge", "violation"] tl then .Critical else .High
    | .NavigationalHazard => .High
    | .SafetyViolation =>
      if anyTerm ["accident", "injury"] tl then .High else .Medium
    | _ =>
      if anyTerm highKeywords tl then .High
      else if anyTerm mediumKeywords tl then .Medium
      else .Low

/-! ### Document-type inference (`_determine_document_type`) -/

/-- Indicator lists of `_determine_document_type`, in source order. -/
def sensorIndicators : List String := ["alert", "alarm", "sensor", "warning"]

def incidentIndicators : List String := ["incident", "accident", "spill", "collision"]

def inspectionIndicators : List String := ["inspection", "survey", "audit", "examination"]

/-- `_determine_document_type`: a first-match if/elif chain over the three
indicator lists, defaulting to `MAINTENANCE_RECORD`. -/
def determineDocumentType (text : List Char) : DocumentType :=
  let tl := pyLower text
  if anyTerm sensorIndicators tl then .SensorAlert
  else if anyTerm incidentIndicators tl then .IncidentReport
  else if anyTerm inspectionIndicators tl then .InspectionReport
  else .MaintenanceRecord

/-- Number of indicator hits per inferable document type (used to state the
specification's keyword-vote reading of document-type inference). -/
def docIndicatorHits (tl : List Char) : DocumentType → Nat
  | .SensorAlert => countMatches sensorIndicators tl
  | .IncidentReport => countMatches incidentIndicators tl
  | .InspectionReport => countMatches inspectionIndicators tl
  | _ => 0

/-- Modelled from the specification's words for document-type inference
(claim C5): keyword-vote across the indicator lists, the type with the
most hits wins, ties broken by declaration order of the indicator lists,
default `MaintenanceRecord` when no indicator matches. -/
def documentTypeVote (text : List Char) : DocumentType :=
  let tl := pyLower text
  if docIndicatorHits tl .SensorAlert = 0 ∧ docIndicatorHits tl .IncidentReport = 0
      ∧ docIndicatorHits tl .InspectionReport = 0 then
    .MaintenanceRecord
  else
    pyMaxBy (docIndicatorHits tl) .SensorAlert [.IncidentReport, .InspectionReport]

/-! ### Recommendations (`_generate_recommendations`) -/

/-- Actions appended when `priority == CRITICAL`. -/
def criticalActions : List String :=
  ["IMMEDIATE ACTION REQUIRED",
   "Stop operations immediately if safe to do so",
   "Contact technical support team",
   "Initiate emergency response procedures",
   "Document all findings thoroughly"]

/-- Actions appended when `priority == HIGH`. -/
def highActions : List String :=
  ["Address within 24 hours",
   "Notify relevant personnel",
   "Schedule immediate inspection",
   "Prepare contingency plans"]

/-- Classification-specific actions of the elif chain. -/
def classActions : ClassificationType → List String
  | .CriticalEquipmentFailure =>
    ["Isolate affected equipment",
     "Order replacement parts immediately",
     "Consider emergency port call if necessary",
     "Implement backup systems if available"]
  | .NavigationalHazard =>
    ["Increase bridge watch",
     "Use manual navigation procedures",
     "Contact vessel traffic services",
     "Reduce speed if conditions warrant"]
  | .EnvironmentalCompliance =>
    ["Stop any discharge operations",
     "Contact environmental compliance officer",
     "Prepare incident report for authorities",
     "Implement containment measures"]
  | .RoutineMaintenance =>
    ["Schedule maintenance during next port call",
     "Order required spare parts",
     "Assign qualified personnel",
     "Update maintenance logs"]
  | .SafetyViolation =>
    ["Immediate safety briefing for crew",
     "Review safety procedures",
     "Ensure proper PPE usage",
     "Report to safety officer"]
  | .FuelEfficiency =>
    ["Monitor fuel consumption patterns",
     "Optimize engine parameters",
     "Review voyage planning",
     "Consider trim adjustments"]

/-- Actions appended when `priority in [MEDIUM, LOW]`. -/
def generalActions : List String :=
  ["Monitor pressure levels continuously",
   "Investigate leak source and implement temporary repairs"]

/-- The concatenation built by `_generate_recommendations` before its final
`list(set(recommendations))`. -/
def recommendationPool (classification : ClassificationType)
    (priority : PriorityLevel) : List String :=
  (if priority = .Critical then criticalActions
   else if priority = .High then highActions else [])
  ++ classActions classification
  ++ (if priority = .Medium ∨ priority = .Low then generalActions else [])

/-- `_generate_recommendations`: the pool with duplicates removed.  Python
returns `list(set(recommendations))`, whose iteration order is left
unspecified by the language; the model keeps one representative per
distinct string, and every theorem below uses only order-independent
consequences (membership, distinctness, length). -/
def generateRecommendations (classification : ClassificationType)
    (priority : PriorityLevel) : List String :=
  (recommendationPool classification priority).dedup

/-! ### Summarizer (`_generate_summary`)

Sentence splitting is done by the external TextBlob/NLTK tokenizer; the
model takes the resulting sentence list as a parameter and embeds the
greedy assembly and truncation logic that `_generate_summary` performs on
it.  The `[]` case is the code's `if not sentences` fallback, which is
also the shape of the `except` fallback. -/

/-- The ellipsis suffix `"..."`. -/
def ellipsis : List Char := ['.', '.', '.']

/-- The greedy loop of `_generate_summary`: keep appending
`" " + sentence` while the result stays within `maxLength`, stopping at
the first sentence that does not fit. -/
def appendSentences (summary : List Char) (maxLength : Nat) :
    List (List Char) → List Char
  | [] => summary
  | s :: rest =>
    if (summary ++ ' ' :: s).length ≤ maxLength then
      appendSentences (summary ++ ' ' :: s) maxLength rest
    else summary

/-- `_generate_summary` on an already tokenized sentence list: start from
the first sentence, greedily append, and truncate to
`maxLength - 3` plus an ellipsis if still too long; with no sentences,
truncate the raw text to `maxLength` plus an ellipsis when it is longer
than `maxLength`. -/
def generateSummary (sentences : List (List Char)) (text : List Char)
    (maxLength : Nat) : List Char :=
  match sentences with
  | [] => if maxLength < text.length then text.take maxLength ++ ellipsis else text
  | s :: rest =>
    if maxLength < (appendSentences s maxLength rest).length then
      (appendSentences s maxLength rest).take (maxLength - 3) ++ ellipsis
    else appendSentences s maxLength rest

/-! ### Preprocessor (`_preprocess_text`)

The four steps of `_preprocess_text`, each as a total function on
character lists (ASCII model of the Python regexes):
`re.sub(r'\s+', ' ', text.strip())`, then replacement of characters
outside the allowlist by spaces, then collapsing of runs of `.` and of
`!`, then `' '.join(text.split())`. -/

/-- Python whitespace (`\s`, `str.strip`, `str.split`), ASCII model. -/
def isPySpace (c : Char) : Bool :=
  c == ' ' || c == '\t' || c == '\n' || c == '\r' || c == '\x0b' || c == '\x0c'

/-- Python word character `\w`, ASCII model. -/
def isWordChar (c : Char) : Bool := c.isAlpha || c.isDigit || c == '_'

/-- The allowlist of `re.sub(r'[^\w\s\.\,\;\:\!\?\-\(\)]', ' ', text)`. -/
def isAllowedChar (c : Char) : Bool :=
  isWordChar c || isPySpace c
    || ['.', ',', ';', ':', '!', '?', '-', '(', ')'].contains c

/-- `str.strip()`: drop whitespace from both ends. -/
def stripWs (s : List Char) : List Char :=
  ((s.dropWhile isPySpace).reverse.dropWhile isPySpace).reverse

/-- Worker for `re.sub(r'\s+', ' ', ·)`: the flag records whether the
previous character was whitespace (so further whitespace is dropped). -/
def collapseWsAux : Bool → List Char → List Char
  | _, [] => []
  | afterSp, c :: rest =>
    if isPySpace c then
      if afterSp then collapseWsAux true rest
      else ' ' :: collapseWsAux true rest
    else c :: collapseWsAux false rest

/-- `re.sub(r'\s+', ' ', s)`: every maximal whitespace run becomes one
space. -/
def collapseWs (s : List Char) : List Char := collapseWsAux false s

/-- `re.sub(r'[^\w\s\.\,\;\:\!\?\-\(\)]', ' ', s)`. -/
def stripSpecial (s : List Char) : List Char :=
  s.map fun c => if isAllowedChar c then c else ' '

/-- Worker for collapsing runs of the character `d`; the flag records
whether the previous character was `d`. -/
def squeezeAux (d : Char) : Bool → List Char → List Char
  | _, [] => []
  | afterD, c :: rest =>
    if c == d then
      if afterD then squeezeAux d true rest
      else d :: squeezeAux d true rest
    else c :: squeezeAux d false rest

/-- `re.sub(r'[d]{2,}', d, s)`: runs of `d` become a single `d` (runs of
length one are already single, so this equals collapsing all runs). -/
def squeezeChar (d : Char) (s : List Char) : List Char := squeezeAux d false s

/-- Worker for `str.split()`: `acc` holds the current word reversed. -/
def pySplitAux : List Char → List Char → List (List Char)
  | acc, [] => if acc.isEmpty then [] else [acc.reverse]
  | acc, c :: rest =>
    if isPySpace c then
      if acc.isEmpty then pySplitAux [] rest
      else acc.reverse :: pySplitAux [] rest
    else pySplitAux (c :: acc) rest

/-- `str.split()`: maximal non-whitespace runs, empties dropped. -/
def pySplit (s : List Char) : List (List Char) := pySplitAux [] s

/-- `' '.join(words)`. -/
def joinSpace : List (List Char) → List Char
  | [] => []
  | [w] => w
  | w :: v :: rest => w ++ ' ' :: joinSpace (v :: rest)

/-- `_preprocess_text`: strip and collapse whitespace, replace characters
outside the allowlist by spaces, collapse `.` runs then `!` runs, and
rejoin the whitespace-split words with single spaces. -/
def preprocessText (s : List Char) : List Char :=
  joinSpace (pySplit (squeezeChar '!' (squeezeChar '.'
    (stripSpecial (collapseWs (stripWs s))))))

/-- `process_document` steps 1–2: preprocess, then classify; the pair
`(classification, confidence)` of the response. -/
def processClassify (text : List Char) : ClassificationType × ℚ :=
  classifyDocument (preprocessText text)

/-- Modelled from the specification's words for the scoring formula
(claim C2): `category_score = category_weight * (0.4 * #keyword_matches
+ 0.3 * #equipment_term_matches + 0.3 * #priority_indicator_matches)`. -/
def specCategoryScore (tl : List Char) (c : ClassificationType) : ℚ :=
  (patterns c).weight
    * (0.4 * (countMatches (patterns c).keywords tl : ℚ)
      + 0.3 * (countMatches (patterns c).equipmentTerms tl : ℚ)
      + 0.3 * (countMatches (patterns c).priorityIndicators tl : ℚ))

/-- No two adjacent characters of the list both satisfy `p`. -/
def noAdjBy (p : Char → Bool) : List Char → Bool
  | [] => true
  | [_] => true
  | a :: b :: rest => (!(p a && p b)) && noAdjBy p (b :: rest)

/-! ## Theorems -/

theorem weight_eq_weight10 (c : ClassificationType) :
    (patterns c).weight = (weight10 c : ℚ) / 10 := by
  cases c <;> norm_num [patterns, weight10]

theorem categoryScore_eq_score100 (tl : List Char) (c : ClassificationType) :
    categoryScore tl c = (score100 tl c : ℚ) / 100 := by
  rw [categoryScore, weight_eq_weight10, score100]
  push_cast
  ring

theorem categoryScore_nonneg (tl : List Char) (c : ClassificationType) :
    0 ≤ categoryScore tl c := by
  rw [categoryScore_eq_score100]
  positivity

theorem categoryScore_lt_iff (tl : List Char) (b c : ClassificationType) :
    categoryScore tl b < categoryScore tl c ↔ score100 tl b < score100 tl c := by
  rw [categoryScore_eq_score100, categoryScore_eq_score100,
    div_lt_div_iff_of_pos_right (by norm_num : (0:ℚ) < 100)]
  exact_mod_cast Iff.rfl

theorem categoryScore_lt_half_iff (tl : List Char) (c : ClassificationType) :
    categoryScore tl c < 0.5 ↔ score100 tl c < 50 := by
  rw [categoryScore_eq_score100, div_lt_iff₀ (by norm_num : (0:ℚ) < 100)]
  norm_num

theorem categoryScore_eq_zero_iff (tl : List Char) (c : ClassificationType) :
    categoryScore tl c = 0 ↔ score100 tl c = 0 := by
  rw [categoryScore_eq_score100, div_eq_zero_iff]
  norm_num

/-- `pyMaxBy` only looks at strict comparisons of keys, so any key
function inducing the same comparisons selects the same element. -/
theorem pyMaxBy_congr {α β γ : Type} [LinearOrder β] [LinearOrder γ]
    (f : α → β) (g : α → γ) (hfg : ∀ x y, f x < f y ↔ g x < g y) :
    ∀ (l : List α) (b : α), pyMaxBy f b l = pyMaxBy g b l := by
  intro l
  induction l with
  | nil => intro b; rfl
  | cons c l ih =>
    intro b
    simp only [pyMaxBy, hfg]
    exact ih _

theorem bestClassification_eq_nat (tl : List Char) :
    bestClassification tl
      = pyMaxBy (score100 tl) .CriticalEquipmentFailure
          [.NavigationalHazard, .EnvironmentalCompliance, .RoutineMaintenance,
           .SafetyViolation, .FuelEfficiency] := by
  rw [bestClassification]
  exact pyMaxBy_congr _ _ (fun x y => categoryScore_lt_iff tl x y) _ _

/-- Structure of Python `max` with first-wins ties: either the start value
is kept and bounds everything, or the result sits somewhere in the list,
is strictly above the start value and everything before it, and bounds
everything after it. -/
theorem pyMaxBy_spec {α β : Type} [LinearOrder β] (f : α → β) :
    ∀ (l : List α) (b : α),
      (pyMaxBy f b l = b ∧ ∀ x ∈ l, f x ≤ f b)
      ∨ (∃ l1 l2, l = l1 ++ pyMaxBy f b l :: l2
          ∧ f b < f (pyMaxBy f b l)
          ∧ (∀ x ∈ l1, f x < f (pyMaxBy f b l))
          ∧ (∀ x ∈ l2, f x ≤ f (pyMaxBy f b l))) := by
  intro l
  induction l with
  | nil => intro b; exact Or.inl ⟨rfl, by simp⟩
  | cons c l ih =>
    intro b
    simp only [pyMaxBy]
    by_cases h : f b < f c
    · rw [if_pos h]
      rcases ih c with ⟨heq, hub⟩ | ⟨l1, l2, hdec, hlt, hl1, hl2⟩
      · refine Or.inr ⟨[], l, ?_, ?_, by simp, ?_⟩
        · rw [List.nil_append, heq]
        · rw [heq]; exact h
        · rw [heq]; exact hub
      · refine Or.inr ⟨c :: l1, l2, ?_, lt_trans h hlt, ?_, hl2⟩
        · rw [List.cons_append, ← hdec]
        · intro x hx
          rcases List.mem_cons.mp hx with h1 | h1
          · rw [h1]; exact hlt
          · exact hl1 x h1
    · rw [if_neg h]
      push_neg at h
      rcases ih b with ⟨heq, hub⟩ | ⟨l1, l2, hdec, hlt, hl1, hl2⟩
      · refine Or.inl ⟨heq, ?_⟩
        intro x hx
        rcases List.mem_cons.mp hx with h1 | h1
        · rw [h1]; exact h
        · exact hub x h1
      · refine Or.inr ⟨c :: l1, l2, ?_, hlt, ?_, hl2⟩
        · rw [List.cons_append, ← hdec]
        · intro x hx
          rcases List.mem_cons.mp hx with h1 | h1
          · rw [h1]; exact lt_of_le_of_lt h hlt
          · exact hl1 x h1

theorem mem_catalog (c : ClassificationType) : c ∈ catalog := by
  cases c <;> simp [catalog]

/-- The winner of `_classify_document` sits in the catalog; every earlier
catalog entry scores strictly less, and every category scores at most the
winning score. -/
theorem best_spec (tl : List Char) :
    ∃ l1 l2, catalog = l1 ++ bestClassification tl :: l2
      ∧ (∀ c ∈ l1, categoryScore tl c < winningScore tl)
      ∧ (∀ c : ClassificationType, categoryScore tl c ≤ winningScore tl) := by
  have h := pyMaxBy_spec (categoryScore tl)
    [.NavigationalHazard, .EnvironmentalCompliance, .RoutineMaintenance,
     .SafetyViolation, .FuelEfficiency] .CriticalEquipmentFailure
  rw [show pyMaxBy (categoryScore tl) ClassificationType.CriticalEquipmentFailure
      [.NavigationalHazard, .EnvironmentalCompliance, .RoutineMaintenance,
       .SafetyViolation, .FuelEfficiency] = bestClassification tl from rfl] at h
  rcases h with ⟨heq, hub⟩ | ⟨l1, l2, hdec, hlt, hl1, hl2⟩
  · refine ⟨[], [.NavigationalHazard, .EnvironmentalCompliance, .RoutineMaintenance,
      .SafetyViolation, .FuelEfficiency], by simp [catalog, heq], by simp, ?_⟩
    intro c
    rw [winningScore, heq]
    rcases (by cases c <;> simp :
        c = ClassificationType.CriticalEquipmentFailure
        ∨ c ∈ [ClassificationType.NavigationalHazard,
            ClassificationType.EnvironmentalCompliance,
            ClassificationType.RoutineMaintenance,
            ClassificationType.SafetyViolation,
            ClassificationType.FuelEfficiency]) with h1 | h1
    · rw [h1]
    · exact hub c h1
  · have hcat : catalog = (ClassificationType.CriticalEquipmentFailure :: l1)
        ++ bestClassification tl :: l2 := by
      rw [List.cons_append]
      exact congrArg (List.cons _) hdec
    refine ⟨.CriticalEquipmentFailure :: l1, l2, hcat, ?_, ?_⟩
    · intro c hc
      rw [winningScore]
      rcases List.mem_cons.mp hc with h1 | h1
      · rw [h1]; exact hlt
      · exact hl1 c h1
    · intro c
      have hc : c ∈ catalog := mem_catalog c
      rw [hcat] at hc
      rw [winningScore]
      rcases List.mem_append.mp hc with hc | hc
      · rcases List.mem_cons.mp hc with h1 | h1
        · rw [h1]; exact le_of_lt hlt
        · exact le_of_lt (hl1 c h1)
      · rcases List.mem_cons.mp hc with h1 | h1
        · rw [h1]
        · exact hl2 c h1

theorem winningScore_nonneg (tl : List Char) : 0 ≤ winningScore tl :=
  categoryScore_nonneg tl _

theorem winningScore_le_totalScore (tl : List Char) :
    winningScore tl ≤ totalScore tl := by
  obtain ⟨l1, l2, hdec, -, -⟩ := best_spec tl
  rw [totalScore, hdec]
  simp only [List.map_append, List.map_cons, List.sum_append, List.sum_cons]
  have h1 : 0 ≤ (l1.map (categoryScore tl)).sum :=
    List.sum_nonneg (by
      intro q hq
      obtain ⟨c, -, rfl⟩ := List.mem_map.mp hq
      exact categoryScore_nonneg tl c)
  have h2 : 0 ≤ (l2.map (categoryScore tl)).sum :=
    List.sum_nonneg (by
      intro q hq
      obtain ⟨c, -, rfl⟩ := List.mem_map.mp hq
      exact categoryScore_nonneg tl c)
  rw [winningScore]
  linarith

theorem totalScore_le_six (tl : List Char) :
    totalScore tl ≤ 6 * winningScore tl := by
  obtain ⟨-, -, -, -, hub⟩ := best_spec tl
  have h1 := hub .CriticalEquipmentFailure
  have h2 := hub .NavigationalHazard
  have h3 := hub .EnvironmentalCompliance
  have h4 := hub .RoutineMaintenance
  have h5 := hub .SafetyViolation
  have h6 := hub .FuelEfficiency
  simp only [totalScore, catalog, List.map_cons, List.map_nil, List.sum_cons,
    List.sum_nil, add_zero]
  linarith

/-- When the fallback does not fire, `_classify_document` returns the
winner together with `winning / total` (the clamp `min · 1` is vacuous
because the winning score never exceeds the total). -/
theorem classify_high (text : List Char)
    (h : ¬ winningScore (pyLower text) < 0.5) :
    classifyDocument text
      = (bestClassification (pyLower text),
         winningScore (pyLower text) / totalScore (pyLower text)) := by
  push_neg at h
  have hpos : 0 < totalScore (pyLower text) :=
    lt_of_lt_of_le (lt_of_lt_of_le (by norm_num) h)
      (winningScore_le_totalScore _)
  have hle1 : winningScore (pyLower text) / totalScore (pyLower text) ≤ 1 :=
    (div_le_one hpos).mpr (winningScore_le_totalScore _)
  rw [classifyDocument, if_neg (not_lt.mpr h), if_pos hpos, min_eq_left hle1]

/-- If the winning score is below the 0.5 threshold, `_classify_document`
takes the fallback branch. -/
theorem classify_low (text : List Char)
    (h : winningScore (pyLower text) < 0.5) :
    classifyDocument text = (.RoutineMaintenance, 0.1) := by
  rw [classifyDocument, if_pos h]

/-- Threshold test reduced to the kernel-computable `ℕ` mirror. -/
theorem winningScore_lt_half_iff (tl : List Char) :
    winningScore tl < 0.5
      ↔ score100 tl (pyMaxBy (score100 tl) .CriticalEquipmentFailure
          [.NavigationalHazard, .EnvironmentalCompliance, .RoutineMaintenance,
           .SafetyViolation, .FuelEfficiency]) < 50 := by
  rw [winningScore, categoryScore_lt_half_iff, bestClassification_eq_nat]

theorem half_le_winningScore_iff (tl : List Char) :
    0.5 ≤ winningScore tl
      ↔ 50 ≤ score100 tl (pyMaxBy (score100 tl) .CriticalEquipmentFailure
          [.NavigationalHazard, .EnvironmentalCompliance, .RoutineMaintenance,
           .SafetyViolation, .FuelEfficiency]) := by
  rw [← not_lt, winningScore_lt_half_iff, not_lt]

/-- Claim C1: for every input text whose maximum category score is below
0.5 — equivalently, every category scores below 0.5 — `_classify_document`
returns classification `ROUTINE_MAINTENANCE` with confidence exactly 0.1,
regardless of which category nominally achieved the maximum. -/
theorem claim1_fallback (text : List Char)
    (h : ∀ c : ClassificationType, categoryScore (pyLower text) c < 0.5) :
    classifyDocument text = (.RoutineMaintenance, 0.1) := by
  have hw : winningScore (pyLower text) < 0.5 := h _
  exact classify_low text hw

/-- Witness for C1 at the text "fog": every category scores below 0.5 and
the classifier returns the fallback pair. -/
theorem claim1_fallback_witness :
    (∀ c : ClassificationType, categoryScore (pyLower "fog".data) c < 0.5)
    ∧ classifyDocument "fog".data = (.RoutineMaintenance, 0.1) := by
  have h : ∀ c : ClassificationType, categoryScore (pyLower "fog".data) c < 0.5 := by
    intro c
    rw [categoryScore_lt_half_iff]
    revert c
    decide
  exact ⟨h, claim1_fallback _ h⟩

/-- Counterexample to C2 as stated: on the text "fog" the category with
the (strictly) maximum score is `NavigationalHazard`, but
`_classify_document` returns `RoutineMaintenance`, because the
low-score fallback overrides the argmax. -/
theorem claim2_counterexample :
    (classifyDocument "fog".data).1 = .RoutineMaintenance
    ∧ (∀ c : ClassificationType, c ≠ .NavigationalHazard →
        categoryScore (pyLower "fog".data) c
          < categoryScore (pyLower "fog".data) .NavigationalHazard)
    ∧ (classifyDocument "fog".data).1 ≠ .NavigationalHazard := by
  have hw : winningScore (pyLower "fog".data) < 0.5 := by
    rw [winningScore_lt_half_iff]; decide
  rw [classify_low _ hw]
  refine ⟨rfl, ?_, by decide⟩
  intro c hc
  rw [categoryScore_lt_iff]
  revert hc
  revert c
  decide

/-- Claim C2 (amended): scores are computed by the claimed formula, and
whenever the winning score is at least 0.5 — so the fallback does not
override the winner — the returned classification attains the maximum
category score and strictly beats every category declared before it in
the catalog (first-defined wins ties). -/
theorem claim2_amended (text : List Char)
    (h : 0.5 ≤ winningScore (pyLower text)) :
    (∀ c, categoryScore (pyLower text) c = specCategoryScore (pyLower text) c)
    ∧ (∀ c, categoryScore (pyLower text) c
        ≤ categoryScore (pyLower text) (classifyDocument text).1)
    ∧ (∃ l1 l2, catalog = l1 ++ (classifyDocument text).1 :: l2
        ∧ ∀ c ∈ l1, categoryScore (pyLower text) c
            < categoryScore (pyLower text) (classifyDocument text).1) := by
  rw [classify_high text (not_lt.mpr h)]
  obtain ⟨l1, l2, hdec, hbefore, hub⟩ := best_spec (pyLower text)
  refine ⟨?_, ?_, l1, l2, hdec, hbefore⟩
  · intro c
    rw [categoryScore, specCategoryScore]
    ring
  · exact hub

/-- Witness for the amended C2 at the text "critical". -/
theorem claim2_amended_witness :
    0.5 ≤ winningScore (pyLower "critical".data)
    ∧ ((∀ c, categoryScore (pyLower "critical".data) c
          = specCategoryScore (pyLower "critical".data) c)
      ∧ (∀ c, categoryScore (pyLower "critical".data) c
          ≤ categoryScore (pyLower "critical".data) (classifyDocument "critical".data).1)
      ∧ (∃ l1 l2, catalog = l1 ++ (classifyDocument "critical".data).1 :: l2
          ∧ ∀ c ∈ l1, categoryScore (pyLower "critical".data) c
              < categoryScore (pyLower "critical".data) (classifyDocument "critical".data).1)) := by
  have h : 0.5 ≤ winningScore (pyLower "critical".data) := by
    rw [half_le_winningScore_iff]; decide
  exact ⟨h, claim2_amended _ h⟩

/-- Claim C3: `_determine_priority` implements exactly the layered
first-match policy of the specification: urgent keywords give Critical
regardless of classification; then the four category overrides; then high
keywords; then medium keywords; then Low. -/
theorem claim3_priority (text : List Char) (classification : ClassificationType) :
    determinePriority text classification = resolvePrioritySpec text classification := by
  cases classification <;> rfl

/-- Counterexample to C4 as stated: for
`(CriticalEquipmentFailure, Critical)` the code yields 9 distinct
recommendations, so the claimed cap of 6 does not hold. -/
theorem claim4_counterexample :
    (generateRecommendations .CriticalEquipmentFailure .Critical).length = 9
    ∧ ¬ (generateRecommendations .CriticalEquipmentFailure .Critical).length ≤ 6 := by
  refine ⟨by decide, by decide⟩

/-- Claim C4 (amended): the result holds exactly the distinct elements of
the concatenation of the applicable priority-based and
classification-specific lists — Python's `list(set(...))`, whose
iteration order is unspecified, so no first-seen order is guaranteed —
without duplicates, and its length is at most 9; the code has no cap of
6. -/
theorem claim4_amended (classification : ClassificationType) (priority : PriorityLevel) :
    (∀ a, a ∈ generateRecommendations classification priority
        ↔ a ∈ recommendationPool classification priority)
    ∧ (generateRecommendations classification priority).Nodup
    ∧ (generateRecommendations classification priority).length ≤ 9 := by
  refine ⟨fun a => List.mem_dedup, List.nodup_dedup _, ?_⟩
  calc (recommendationPool classification priority).dedup.length
      ≤ (recommendationPool classification priority).length :=
        (List.dedup_sublist _).length_le
    _ ≤ 9 := by cases priority <;> cases classification <;> decide

/-- Counterexample to C5 as stated: the text "alert incident accident"
has one sensor-indicator hit and two incident-indicator hits, so the
claimed keyword-vote would return `IncidentReport`; the code's first-match
chain returns `SensorAlert`. -/
theorem claim5_counterexample :
    determineDocumentType "alert incident accident".data = .SensorAlert
    ∧ documentTypeVote "alert incident accident".data = .IncidentReport
    ∧ DocumentType.SensorAlert ≠ DocumentType.IncidentReport := by
  refine ⟨by decide, by decide, by decide⟩

/-- Claim C5 (amended): document-type inference is a first-match presence
chain over the indicator lists in source order — SensorAlert, then
IncidentReport, then InspectionReport — and returns `MaintenanceRecord`
when no indicator matches (the claim's default clause does hold). -/
theorem claim5_amended (text : List Char) :
    (anyTerm sensorIndicators (pyLower text) = true →
      determineDocumentType text = .SensorAlert)
    ∧ (anyTerm sensorIndicators (pyLower text) = false →
        anyTerm incidentIndicators (pyLower text) = true →
        determineDocumentType text = .IncidentReport)
    ∧ (anyTerm sensorIndicators (pyLower text) = false →
        anyTerm incidentIndicators (pyLower text) = false →
        anyTerm inspectionIndicators (pyLower text) = true →
        determineDocumentType text = .InspectionReport)
    ∧ (anyTerm sensorIndicators (pyLower text) = false →
        anyTerm incidentIndicators (pyLower text) = false →
        anyTerm inspectionIndicators (pyLower text) = false →
        determineDocumentType text = .MaintenanceRecord) := by
  refine ⟨?_, ?_, ?_, ?_⟩
  · intro h1
    simp [determineDocumentType, h1]
  · intro h1 h2
    simp [determineDocumentType, h1, h2]
  · intro h1 h2 h3
    simp [determineDocumentType, h1, h2, h3]
  · intro h1 h2 h3
    simp [determineDocumentType, h1, h2, h3]

/-- Witness for the amended C5 at the text "alert". -/
theorem claim5_amended_witness :
    anyTerm sensorIndicators (pyLower "alert".data) = true
    ∧ determineDocumentType "alert".data = .SensorAlert :=
  ⟨by decide, (claim5_amended "alert".data).1 (by decide)⟩

/-- Claim C6: for every tokenized sentence list and every text,
`_generate_summary` with `max_length = 150` returns a string of length at
most 150 characters of content plus the 3-character ellipsis; the model
is a total function of the sentence list and raw text, so no exception is
possible. -/
theorem claim6_summary_bound (sentences : List (List Char)) (text : List Char) :
    (generateSummary sentences text 150).length ≤ 153 := by
  cases sentences with
  | nil =>
    rw [generateSummary]
    split
    · simp only [List.length_append, List.length_take, ellipsis, List.length_cons,
        List.length_nil]
      omega
    · next h => omega
  | cons s rest =>
    rw [generateSummary]
    split
    · simp only [List.length_append, List.length_take, ellipsis, List.length_cons,
        List.length_nil]
      omega
    · next h => omega

/-- Claim C7: the classification pipeline (preprocess then classify) is a
total function in the model — no exception for any text — and whenever
every category score of the preprocessed text is zero (for instance when
the text is empty after preprocessing), the result is the fallback
`(ROUTINE_MAINTENANCE, 0.1)`. -/
theorem claim7_degrade (text : List Char)
    (h : ∀ c : ClassificationType,
      categoryScore (pyLower (preprocessText text)) c = 0) :
    processClassify text = (.RoutineMaintenance, 0.1) := by
  have hw : winningScore (pyLower (preprocessText text)) < 0.5 := by
    rw [winningScore, h _]
    norm_num
  exact classify_low _ hw

/-- Witness for C7 at the all-punctuation text, which preprocesses to the
empty string and scores zero everywhere. -/
theorem claim7_degrade_witness :
    (∀ c : ClassificationType,
      categoryScore (pyLower (preprocessText "@#$%".data)) c = 0)
    ∧ processClassify "@#$%".data = (.RoutineMaintenance, 0.1) := by
  have h : ∀ c : ClassificationType,
      categoryScore (pyLower (preprocessText "@#$%".data)) c = 0 := by
    intro c
    rw [categoryScore_eq_zero_iff]
    revert c
    decide
  exact ⟨h, claim7_degrade _ h⟩

/-- Counterexample to C8 as stated: on the empty text the sum of all
category scores is zero, yet the returned confidence is the fallback's
0.1, not the claimed 0. -/
theorem claim8_counterexample :
    totalScore (pyLower []) = 0
    ∧ (classifyDocument []).2 = 0.1
    ∧ (0.1 : ℚ) ≠ 0 := by
  have h : ∀ c : ClassificationType, categoryScore (pyLower []) c = 0 := by
    intro c
    rw [categoryScore_eq_zero_iff]
    revert c
    decide
  have hw : winningScore (pyLower []) < 0.5 := by
    rw [winningScore, h _]
    norm_num
  refine ⟨?_, ?_, by norm_num⟩
  · simp [totalScore, catalog, h]
  · rw [classify_low _ hw]

/-- Claim C8 (amended): the returned confidence always lies in `[0, 1]`;
when the winning score is at least 0.5 it equals
`winning_score / total_score` (the clamp to 1 is vacuous because the
winning score never exceeds the total), and when the winning score is
below 0.5 — including every case where the total is zero — the fallback
fixes it at 0.1, not 0. -/
theorem claim8_amended (text : List Char) :
    0 ≤ (classifyDocument text).2 ∧ (classifyDocument text).2 ≤ 1
    ∧ (0.5 ≤ winningScore (pyLower text) →
        (classifyDocument text).2
          = winningScore (pyLower text) / totalScore (pyLower text))
    ∧ (winningScore (pyLower text) < 0.5 → (classifyDocument text).2 = 0.1) := by
  by_cases h : winningScore (pyLower text) < 0.5
  · rw [classify_low text h]
    exact ⟨by norm_num, by norm_num,
      fun h2 => absurd h (not_lt.mpr h2), fun _ => rfl⟩
  · rw [classify_high text h]
    push_neg at h
    have hpos : 0 < totalScore (pyLower text) :=
      lt_of_lt_of_le (lt_of_lt_of_le (by norm_num) h) (winningScore_le_totalScore _)
    exact ⟨div_nonneg (winningScore_nonneg _) (le_of_lt hpos),
      (div_le_one hpos).mpr (winningScore_le_totalScore _),
      fun _ => rfl, fun h2 => absurd h2 (not_lt.mpr h)⟩

/-- Witness for the amended C8 at the text "critical failure". -/
theorem claim8_amended_witness :
    0.5 ≤ winningScore (pyLower "critical failure".data)
    ∧ (classifyDocument "critical failure".data).2
        = winningScore (pyLower "critical failure".data)
          / totalScore (pyLower "critical failure".data) := by
  have h : 0.5 ≤ winningScore (pyLower "critical failure".data) := by
    rw [half_le_winningScore_iff]; decide
  exact ⟨h, (claim8_amended _).2.2.1 h⟩

/-- Claim C10: when the fallback does not fire (winning score at least
0.5), the six category scores are non-negative and each bounded by the
maximum, so the total is at most six times the maximum and the returned
confidence is at least 1/6 — in particular strictly above the fallback's
fixed 0.1. -/
theorem claim10_confidence_floor (text : List Char)
    (h : 0.5 ≤ winningScore (pyLower text)) :
    1/6 ≤ (classifyDocument text).2 ∧ 0.1 < (classifyDocument text).2 := by
  rw [classify_high text (not_lt.mpr h)]
  have hpos : 0 < totalScore (pyLower text) :=
    lt_of_lt_of_le (lt_of_lt_of_le (by norm_num) h) (winningScore_le_totalScore _)
  have h6 : totalScore (pyLower text) ≤ 6 * winningScore (pyLower text) :=
    totalScore_le_six _
  have hmain : 1/6 ≤ winningScore (pyLower text) / totalScore (pyLower text) := by
    rw [le_div_iff₀ hpos]
    linarith
  exact ⟨hmain, lt_of_lt_of_le (by norm_num) hmain⟩

/-- Witness for C10 at the text "emergency shutdown". -/
theorem claim10_confidence_floor_witness :
    0.5 ≤ winningScore (pyLower "emergency shutdown".data)
    ∧ 1/6 ≤ (classifyDocument "emergency shutdown".data).2 := by
  have h : 0.5 ≤ winningScore (pyLower "emergency shutdown".data) := by
    rw [half_le_winningScore_iff]; decide
  exact ⟨h, (claim10_confidence_floor _ h).1⟩

/-! ### Toolkit for the preprocessing idempotence proof (claim C9) -/

theorem head?_mem {α : Type} (l : List α) (x : α) (h : l.head? = some x) :
    x ∈ l := by
  cases l with
  | nil => simp at h
  | cons a l =>
    simp only [List.head?_cons, Option.some.injEq] at h
    rw [← h]
    exact List.mem_cons_self a l

theorem getLast?_mem {α : Type} : ∀ (l : List α) (x : α),
    l.getLast? = some x → x ∈ l := by
  intro l
  induction l with
  | nil => intro x h; simp at h
  | cons a l ih =>
    intro x h
    cases l with
    | nil =>
      simp only [List.getLast?_singleton, Option.some.injEq] at h
      rw [← h]
      exact List.mem_cons_self a []
    | cons b l' =>
      rw [List.getLast?_cons_cons] at h
      exact List.mem_cons_of_mem a (ih x h)

theorem getLast?_append_right {α : Type} : ∀ (xs ys : List α), ys ≠ [] →
    (xs ++ ys).getLast? = ys.getLast? := by
  intro xs ys hys
  induction xs with
  | nil => rfl
  | cons a xs ih =>
    rw [List.cons_append]
    cases h : xs ++ ys with
    | nil =>
      rcases List.append_eq_nil.mp h with ⟨-, h2⟩
      exact absurd h2 hys
    | cons b l =>
      rw [h] at ih
      rw [List.getLast?_cons_cons]
      exact ih

theorem noAdjBy_cons_elim (p : Char → Bool) (x : Char) (l : List Char)
    (h : noAdjBy p (x :: l) = true) :
    (∀ y, l.head? = some y → (p x && p y) = false) ∧ noAdjBy p l = true := by
  cases l with
  | nil => exact ⟨by intro y hy; simp at hy, rfl⟩
  | cons b l' =>
    rw [noAdjBy] at h
    simp only [Bool.and_eq_true, Bool.not_eq_true'] at h
    refine ⟨?_, h.2⟩
    intro y hy
    simp only [List.head?_cons, Option.some.injEq] at hy
    rw [← hy]
    exact h.1

theorem noAdjBy_cons_intro (p : Char → Bool) (x : Char) (l : List Char)
    (h1 : ∀ y, l.head? = some y → (p x && p y) = false)
    (h2 : noAdjBy p l = true) : noAdjBy p (x :: l) = true := by
  cases l with
  | nil => rfl
  | cons b l' =>
    rw [noAdjBy]
    simp only [Bool.and_eq_true, Bool.not_eq_true']
    exact ⟨h1 b rfl, h2⟩

theorem noAdjBy_append_left (p : Char → Bool) : ∀ (xs ys : List Char),
    noAdjBy p (xs ++ ys) = true → noAdjBy p xs = true := by
  intro xs ys
  induction xs with
  | nil => intro _; rfl
  | cons a xs ih =>
    intro h
    obtain ⟨h1, h2⟩ := noAdjBy_cons_elim p a _ h
    refine noAdjBy_cons_intro p a xs ?_ (ih h2)
    intro y hy
    apply h1
    cases xs with
    | nil => simp at hy
    | cons b xs' =>
      simp only [List.head?_cons, Option.some.injEq] at hy
      simp [hy]

theorem noAdjBy_append_right (p : Char → Bool) : ∀ (xs ys : List Char),
    noAdjBy p (xs ++ ys) = true → noAdjBy p ys = true := by
  intro xs ys
  induction xs with
  | nil => intro h; exact h
  | cons a xs ih =>
    intro h
    exact ih (noAdjBy_cons_elim p a _ h).2

theorem noAdjBy_append_boundary (p : Char → Bool) : ∀ (xs ys : List Char),
    noAdjBy p xs = true → noAdjBy p ys = true →
    (∀ a b, xs.getLast? = some a → ys.head? = some b → (p a && p b) = false) →
    noAdjBy p (xs ++ ys) = true := by
  intro xs
  induction xs with
  | nil => intro ys _ h2 _; exact h2
  | cons a xs ih =>
    intro ys h1 h2 hb
    obtain ⟨ha, hxs⟩ := noAdjBy_cons_elim p a xs h1
    refine noAdjBy_cons_intro p a (xs ++ ys) ?_ (ih ys hxs h2 ?_)
    · intro y hy
      cases xs with
      | nil =>
        exact hb a y (by simp) hy
      | cons b xs' =>
        simp only [List.cons_append, List.head?_cons, Option.some.injEq] at hy
        exact ha y (by simp [hy])
    · intro a' b' hlast hhead
      refine hb a' b' ?_ hhead
      cases xs with
      | nil => simp at hlast
      | cons b xs' =>
        rw [List.getLast?_cons_cons]
        exact hlast

theorem noAdjBy_of_all_false (p : Char → Bool) : ∀ (l : List Char),
    (∀ c ∈ l, p c = false) → noAdjBy p l = true := by
  intro l
  induction l with
  | nil => intro _; rfl
  | cons x l ih =>
    intro h
    refine noAdjBy_cons_intro p x l ?_ (ih ?_)
    · intro y hy
      simp [h x (List.mem_cons_self x l)]
    · intro c hc
      exact h c (List.mem_cons_of_mem x hc)

theorem dropWhile_eq_self_of_head (p : Char → Bool) (s : List Char)
    (h : ∀ x, s.head? = some x → p x = false) : s.dropWhile p = s := by
  cases s with
  | nil => rfl
  | cons c rest => simp [List.dropWhile_cons, h c rfl]

/-- `str.strip()` is the identity on strings with non-whitespace ends. -/
theorem stripWs_eq_self (s : List Char)
    (hh : ∀ x, s.head? = some x → isPySpace x = false)
    (hl : ∀ x, s.getLast? = some x → isPySpace x = false) :
    stripWs s = s := by
  rw [stripWs, dropWhile_eq_self_of_head _ _ hh,
    dropWhile_eq_self_of_head _ _ ?_, List.reverse_reverse]
  intro x hx
  rw [List.head?_reverse] at hx
  exact hl x hx

/-- Whitespace collapsing is the identity on strings whose only
whitespace characters are single separating spaces. -/
theorem collapseWsAux_eq_self : ∀ (s : List Char),
    (∀ c ∈ s, isPySpace c = true → c = ' ') →
    noAdjBy isPySpace s = true →
    (collapseWsAux false s = s
      ∧ ((∀ x, s.head? = some x → isPySpace x = false) →
          collapseWsAux true s = s)) := by
  intro s
  induction s with
  | nil => intro _ _; exact ⟨rfl, fun _ => rfl⟩
  | cons c rest ih =>
    intro hsp hadj
    obtain ⟨hhead, htail⟩ := noAdjBy_cons_elim _ c rest hadj
    obtain ⟨ihF, ihT⟩ :=
      ih (fun x hx h => hsp x (List.mem_cons_of_mem c hx) h) htail
    cases hc : isPySpace c with
    | true =>
      have hc' : c = ' ' := hsp c (List.mem_cons_self c rest) hc
      have hrest : collapseWsAux true rest = rest := by
        apply ihT
        intro x hx
        have h2 := hhead x hx
        rw [hc] at h2
        simpa using h2
      constructor
      · simp only [collapseWsAux, hc, if_true, Bool.false_eq_true, if_false]
        rw [hrest, hc']
      · intro hx
        have h3 := hx c rfl
        rw [hc] at h3
        simp at h3
    | false =>
      constructor
      · simp only [collapseWsAux, hc, Bool.false_eq_true, if_false]
        rw [ihF]
      · intro _
        simp only [collapseWsAux, hc, Bool.false_eq_true, if_false]
        rw [ihF]

/-- Run collapsing for a character `d` is the identity on strings with no
two adjacent occurrences of `d`. -/
theorem squeezeAux_eq_self (d : Char) : ∀ (s : List Char),
    noAdjBy (· == d) s = true →
    (squeezeAux d false s = s
      ∧ ((∀ x, s.head? = some x → (x == d) = false) →
          squeezeAux d true s = s)) := by
  intro s
  induction s with
  | nil => intro _; exact ⟨rfl, fun _ => rfl⟩
  | cons c rest ih =>
    intro hadj
    obtain ⟨hhead, htail⟩ := noAdjBy_cons_elim _ c rest hadj
    obtain ⟨ihF, ihT⟩ := ih htail
    cases hc : c == d with
    | true =>
      have hc' : c = d := eq_of_beq hc
      have hrest : squeezeAux d true rest = rest := by
        apply ihT
        intro x hx
        have h2 := hhead x hx
        rw [hc] at h2
        simpa using h2
      constructor
      · simp only [squeezeAux, hc, if_true, Bool.false_eq_true, if_false]
        rw [hrest, hc']
      · intro hx
        have h3 := hx c rfl
        rw [hc] at h3
        simp at h3
    | false =>
      constructor
      · simp only [squeezeAux, hc, Bool.false_eq_true, if_false]
        rw [ihF]
      · intro _
        simp only [squeezeAux, hc, Bool.false_eq_true, if_false]
        rw [ihF]

/-- The allowlist substitution is the identity on allowed characters. -/
theorem stripSpecial_eq_self : ∀ (s : List Char),
    (∀ c ∈ s, isAllowedChar c = true) → stripSpecial s = s := by
  intro s
  induction s with
  | nil => intro _; rfl
  | cons c rest ih =>
    intro h
    simp only [stripSpecial, List.map_cons]
    rw [if_pos (h c (List.mem_cons_self c rest))]
    have h2 := ih (fun x hx => h x (List.mem_cons_of_mem c hx))
    rw [stripSpecial] at h2
    rw [h2]

/-- Every character of the allowlist substitution's output is allowed. -/
theorem stripSpecial_allowed (s : List Char) (c : Char)
    (h : c ∈ stripSpecial s) : isAllowedChar c = true := by
  rw [stripSpecial] at h
  obtain ⟨a, -, rfl⟩ := List.mem_map.mp h
  by_cases hall : isAllowedChar a = true
  · rw [if_pos hall]; exact hall
  · rw [if_neg hall]; rfl

theorem mem_squeezeAux (d : Char) : ∀ (s : List Char) (b : Bool) (c : Char),
    c ∈ squeezeAux d b s → c ∈ s := by
  intro s
  induction s with
  | nil => intro b c h; simp [squeezeAux] at h
  | cons a rest ih =>
    intro b c h
    cases ha : a == d with
    | true =>
      cases b with
      | true =>
        simp only [squeezeAux, ha, if_true] at h
        exact List.mem_cons_of_mem a (ih true c h)
      | false =>
        simp only [squeezeAux, ha, if_true, Bool.false_eq_true, if_false] at h
        rcases List.mem_cons.mp h with h1 | h1
        · rw [h1, ← eq_of_beq ha]
          exact List.mem_cons_self a rest
        · exact List.mem_cons_of_mem a (ih true c h1)
    | false =>
      simp only [squeezeAux, ha, Bool.false_eq_true, if_false] at h
      rcases List.mem_cons.mp h with h1 | h1
      · rw [h1]
        exact List.mem_cons_self a rest
      · exact List.mem_cons_of_mem a (ih false c h1)

theorem squeezeAux_true_head (d : Char) : ∀ (s : List Char) (x : Char),
    (squeezeAux d true s).head? = some x → (x == d) = false := by
  intro s
  induction s with
  | nil => intro x h; simp [squeezeAux] at h
  | cons a rest ih =>
    intro x h
    cases ha : a == d with
    | true =>
      simp only [squeezeAux, ha, if_true] at h
      exact ih x h
    | false =>
      simp only [squeezeAux, ha, Bool.false_eq_true, if_false,
        List.head?_cons, Option.some.injEq] at h
      rw [← h]
      exact ha

theorem squeezeAux_false_head (d : Char) (s : List Char) :
    (squeezeAux d false s).head? = s.head? := by
  cases s with
  | nil => rfl
  | cons a rest =>
    cases ha : a == d with
    | true =>
      simp only [squeezeAux, ha, if_true, Bool.false_eq_true, if_false,
        List.head?_cons]
      rw [eq_of_beq ha]
    | false =>
      simp only [squeezeAux, ha, Bool.false_eq_true, if_false, List.head?_cons]

/-- The output of run collapsing has no two adjacent occurrences of the
collapsed character. -/
theorem squeezeAux_noAdj_self (d : Char) : ∀ (s : List Char) (b : Bool),
    noAdjBy (· == d) (squeezeAux d b s) = true := by
  intro s
  induction s with
  | nil => intro b; rfl
  | cons a rest ih =>
    intro b
    cases ha : a == d with
    | true =>
      cases b with
      | true => simpa only [squeezeAux, ha, if_true] using ih true
      | false =>
        simp only [squeezeAux, ha, if_true, Bool.false_eq_true, if_false]
        refine noAdjBy_cons_intro _ d _ ?_ (ih true)
        intro y hy
        have h2 := squeezeAux_true_head d rest y hy
        simp [h2]
    | false =>
      simp only [squeezeAux, ha, Bool.false_eq_true, if_false]
      refine noAdjBy_cons_intro _ a _ ?_ (ih false)
      intro y hy
      simp [ha]

/-- Collapsing runs of a different character `e` cannot create a new
adjacent pair of `d`s. -/
theorem squeezeAux_preserve_noAdj (d e : Char) (hde : (e == d) = false) :
    ∀ (s : List Char) (b : Bool),
    noAdjBy (· == d) s = true → noAdjBy (· == d) (squeezeAux e b s) = true := by
  intro s
  induction s with
  | nil => intro b _; rfl
  | cons a rest ih =>
    intro b hadj
    obtain ⟨hhead, htail⟩ := noAdjBy_cons_elim _ a rest hadj
    cases ha : a == e with
    | true =>
      cases b with
      | true => simpa only [squeezeAux, ha, if_true] using ih true htail
      | false =>
        simp only [squeezeAux, ha, if_true, Bool.false_eq_true, if_false]
        refine noAdjBy_cons_intro _ e _ ?_ (ih true htail)
        intro y hy
        simp [hde]
    | false =>
      simp only [squeezeAux, ha, Bool.false_eq_true, if_false]
      refine noAdjBy_cons_intro _ a _ ?_ (ih false htail)
      intro y hy
      rw [squeezeAux_false_head e rest] at hy
      exact hhead y hy

/-- Words produced by `str.split()` are nonempty and whitespace-free. -/
theorem pySplitAux_words : ∀ (u acc : List Char),
    (∀ c ∈ acc, isPySpace c = false) →
    ∀ w ∈ pySplitAux acc u, w ≠ [] ∧ ∀ c ∈ w, isPySpace c = false := by
  intro u
  induction u with
  | nil =>
    intro acc hacc w hw
    cases he : acc.isEmpty with
    | true => simp [pySplitAux, he] at hw
    | false =>
      simp only [pySplitAux, he, Bool.false_eq_true, if_false,
        List.mem_singleton] at hw
      subst hw
      constructor
      · simp only [ne_eq, List.reverse_eq_nil_iff]
        intro h2
        rw [h2] at he
        simp at he
      · intro c hc
        exact hacc c (List.mem_reverse.mp hc)
  | cons a rest ih =>
    intro acc hacc w hw
    cases ha : isPySpace a with
    | true =>
      cases he : acc.isEmpty with
      | true =>
        simp only [pySplitAux, ha, if_true, he] at hw
        exact ih [] (by intro c hc; simp at hc) w hw
      | false =>
        simp only [pySplitAux, ha, if_true, he, Bool.false_eq_true, if_false] at hw
        rcases List.mem_cons.mp hw with h1 | h1
        · subst h1
          constructor
          · simp only [ne_eq, List.reverse_eq_nil_iff]
            intro h2
            rw [h2] at he
            simp at he
          · intro c hc
            exact hacc c (List.mem_reverse.mp hc)
        · exact ih [] (by intro c hc; simp at hc) w h1
    | false =>
      simp only [pySplitAux, ha, Bool.false_eq_true, if_false] at hw
      refine ih (a :: acc) ?_ w hw
      intro c hc
      rcases List.mem_cons.mp hc with h1 | h1
      · rw [h1]; exact ha
      · exact hacc c h1

/-- Every character of a `str.split()` word comes from the accumulator or
the input. -/
theorem pySplitAux_chars : ∀ (u acc : List Char) (w : List Char),
    w ∈ pySplitAux acc u → ∀ c ∈ w, c ∈ acc ∨ c ∈ u := by
  intro u
  induction u with
  | nil =>
    intro acc w hw c hc
    cases he : acc.isEmpty with
    | true => simp [pySplitAux, he] at hw
    | false =>
      simp only [pySplitAux, he, Bool.false_eq_true, if_false,
        List.mem_singleton] at hw
      subst hw
      exact Or.inl (List.mem_reverse.mp hc)
  | cons a rest ih =>
    intro acc w hw c hc
    cases ha : isPySpace a with
    | true =>
      cases he : acc.isEmpty with
      | true =>
        simp only [pySplitAux, ha, if_true, he] at hw
        rcases ih [] w hw c hc with h1 | h1
        · simp at h1
        · exact Or.inr (List.mem_cons_of_mem a h1)
      | false =>
        simp only [pySplitAux, ha, if_true, he, Bool.false_eq_true, if_false] at hw
        rcases List.mem_cons.mp hw with h1 | h1
        · subst h1
          exact Or.inl (List.mem_reverse.mp hc)
        · rcases ih [] w h1 c hc with h2 | h2
          · simp at h2
          · exact Or.inr (List.mem_cons_of_mem a h2)
    | false =>
      simp only [pySplitAux, ha, Bool.false_eq_true, if_false] at hw
      rcases ih (a :: acc) w hw c hc with h1 | h1
      · rcases List.mem_cons.mp h1 with h2 | h2
        · rw [h2]
          exact Or.inr (List.mem_cons_self a rest)
        · exact Or.inl h2
      · exact Or.inr (List.mem_cons_of_mem a h1)

/-- `str.split()` words inherit freedom from adjacent `p`-pairs from the
(reversed accumulator plus) input. -/
theorem pySplitAux_noAdj (p : Char → Bool) : ∀ (u acc : List Char),
    noAdjBy p (acc.reverse ++ u) = true →
    ∀ w ∈ pySplitAux acc u, noAdjBy p w = true := by
  intro u
  induction u with
  | nil =>
    intro acc h w hw
    cases he : acc.isEmpty with
    | true => simp [pySplitAux, he] at hw
    | false =>
      simp only [pySplitAux, he, Bool.false_eq_true, if_false,
        List.mem_singleton] at hw
      subst hw
      rw [List.append_nil] at h
      exact h
  | cons a rest ih =>
    intro acc h w hw
    cases ha : isPySpace a with
    | true =>
      have hrest : noAdjBy p (([] : List Char).reverse ++ rest) = true := by
        simp only [List.reverse_nil, List.nil_append]
        have h2 : noAdjBy p (a :: rest) = true :=
          noAdjBy_append_right p acc.reverse _ h
        exact (noAdjBy_cons_elim p a rest h2).2
      cases he : acc.isEmpty with
      | true =>
        simp only [pySplitAux, ha, if_true, he] at hw
        exact ih [] hrest w hw
      | false =>
        simp only [pySplitAux, ha, if_true, he, Bool.false_eq_true, if_false] at hw
        rcases List.mem_cons.mp hw with h1 | h1
        · subst h1
          exact noAdjBy_append_left p acc.reverse _ h
        · exact ih [] hrest w h1
    | false =>
      simp only [pySplitAux, ha, Bool.false_eq_true, if_false] at hw
      refine ih (a :: acc) ?_ w hw
      rw [List.reverse_cons, List.append_assoc, List.singleton_append]
      exact h

/-- Splitting consumes a whitespace-free block whole, pushing it onto the
accumulator. -/
theorem pySplitAux_word : ∀ (w : List Char),
    (∀ c ∈ w, isPySpace c = false) →
    ∀ (acc r : List Char),
    pySplitAux acc (w ++ r) = pySplitAux (w.reverse ++ acc) r := by
  intro w
  induction w with
  | nil => intro _ acc r; simp
  | cons c w' ih =>
    intro h acc r
    have hc : isPySpace c = false := h c (List.mem_cons_self c w')
    simp only [List.cons_append, pySplitAux, hc, Bool.false_eq_true, if_false,
      List.append_eq]
    rw [ih (fun x hx => h x (List.mem_cons_of_mem c hx)) (c :: acc) r,
      List.reverse_cons, List.append_assoc, List.singleton_append]

theorem joinSpace_ne_nil (w : List Char) (rest : List (List Char))
    (hw : w ≠ []) : joinSpace (w :: rest) ≠ [] := by
  cases rest with
  | nil => simpa [joinSpace] using hw
  | cons v rest' =>
    simp only [joinSpace]
    intro h
    rcases List.append_eq_nil.mp h with ⟨h1, -⟩
    exact hw h1

/-- Splitting a space-joined list of nonempty whitespace-free words
recovers exactly the words. -/
theorem pySplit_joinSpace : ∀ (ws : List (List Char)),
    (∀ w ∈ ws, w ≠ [] ∧ ∀ c ∈ w, isPySpace c = false) →
    pySplit (joinSpace ws) = ws := by
  intro ws
  induction ws with
  | nil => intro _; rfl
  | cons w rest ih =>
    intro h
    obtain ⟨hw, hwc⟩ := h w (List.mem_cons_self w rest)
    have hne : w.reverse.isEmpty = false := by
      cases w with
      | nil => exact absurd rfl hw
      | cons a w' => simp
    cases rest with
    | nil =>
      show pySplitAux [] (joinSpace [w]) = [w]
      have h2 := pySplitAux_word w hwc [] []
      rw [List.append_nil, List.append_nil] at h2
      show pySplitAux [] w = [w]
      rw [h2]
      simp only [pySplitAux, hne, Bool.false_eq_true, if_false,
        List.reverse_reverse]
    | cons v rest' =>
      show pySplitAux [] (joinSpace (w :: v :: rest')) = w :: v :: rest'
      simp only [joinSpace]
      rw [pySplitAux_word w hwc [] _, List.append_nil]
      have hsp : isPySpace ' ' = true := rfl
      simp only [pySplitAux, hsp, if_true, hne, Bool.false_eq_true, if_false,
        List.reverse_reverse]
      congr 1
      exact ih (fun x hx => h x (List.mem_cons_of_mem w hx))

/-- Every character of a space-join is the separator or a word
character. -/
theorem mem_joinSpace : ∀ (ws : List (List Char)) (c : Char),
    c ∈ joinSpace ws → c = ' ' ∨ ∃ w ∈ ws, c ∈ w := by
  intro ws
  induction ws with
  | nil => intro c h; simp [joinSpace] at h
  | cons w rest ih =>
    intro c h
    cases rest with
    | nil => exact Or.inr ⟨w, List.mem_cons_self w [], h⟩
    | cons v rest' =>
      simp only [joinSpace] at h
      rcases List.mem_append.mp h with h1 | h1
      · exact Or.inr ⟨w, List.mem_cons_self w _, h1⟩
      · rcases List.mem_cons.mp h1 with h2 | h2
        · exact Or.inl h2
        · rcases ih c h2 with h3 | ⟨w', hw', hc'⟩
          · exact Or.inl h3
          · exact Or.inr ⟨w', List.mem_cons_of_mem w hw', hc'⟩

theorem joinSpace_head_nospace : ∀ (ws : List (List Char)),
    (∀ w ∈ ws, w ≠ [] ∧ ∀ c ∈ w, isPySpace c = false) →
    ∀ x, (joinSpace ws).head? = some x → isPySpace x = false := by
  intro ws h x hx
  cases ws with
  | nil => simp [joinSpace] at hx
  | cons w rest =>
    obtain ⟨hw, hwc⟩ := h w (List.mem_cons_self w rest)
    cases rest with
    | nil => exact hwc x (head?_mem w x hx)
    | cons v rest' =>
      simp only [joinSpace] at hx
      cases w with
      | nil => exact absurd rfl hw
      | cons a w' =>
        simp only [List.cons_append, List.head?_cons, Option.some.injEq] at hx
        rw [← hx]
        exact hwc a (List.mem_cons_self a w')

theorem joinSpace_getLast_nospace : ∀ (ws : List (List Char)),
    (∀ w ∈ ws, w ≠ [] ∧ ∀ c ∈ w, isPySpace c = false) →
    ∀ x, (joinSpace ws).getLast? = some x → isPySpace x = false := by
  intro ws
  induction ws with
  | nil => intro _ x hx; simp [joinSpace] at hx
  | cons w rest ih =>
    intro h x hx
    cases rest with
    | nil =>
      exact (h w (List.mem_cons_self w [])).2 x (getLast?_mem w x hx)
    | cons v rest' =>
      obtain ⟨hv, -⟩ := h v (List.mem_cons_of_mem w (List.mem_cons_self v rest'))
      have hJ : joinSpace (v :: rest') ≠ [] := joinSpace_ne_nil v rest' hv
      simp only [joinSpace] at hx
      rw [getLast?_append_right w (' ' :: joinSpace (v :: rest')) (by simp)] at hx
      cases hJ2 : joinSpace (v :: rest') with
      | nil => exact absurd hJ2 hJ
      | cons y J' =>
        rw [hJ2, List.getLast?_cons_cons] at hx
        refine ih (fun u hu => h u (List.mem_cons_of_mem w hu)) x ?_
        rw [hJ2]
        exact hx

/-- A space-join of words free of adjacent `p`-pairs is itself free of
adjacent `p`-pairs, provided the separator does not satisfy `p`. -/
theorem noAdjBy_joinSpace (p : Char → Bool) (hsep : p ' ' = false) :
    ∀ (ws : List (List Char)), (∀ w ∈ ws, noAdjBy p w = true) →
    noAdjBy p (joinSpace ws) = true := by
  intro ws
  induction ws with
  | nil => intro _; rfl
  | cons w rest ih =>
    intro h
    cases rest with
    | nil => exact h w (List.mem_cons_self w [])
    | cons v rest' =>
      simp only [joinSpace]
      refine noAdjBy_append_boundary p w (' ' :: joinSpace (v :: rest'))
        (h w (List.mem_cons_self w _)) ?_ ?_
      · refine noAdjBy_cons_intro p ' ' _ ?_
          (ih (fun u hu => h u (List.mem_cons_of_mem w hu)))
        intro y hy
        simp [hsep]
      · intro a b _ hb
        simp only [List.head?_cons, Option.some.injEq] at hb
        rw [← hb]
        simp [hsep]

/-- A space-join of nonempty whitespace-free words has no two adjacent
whitespace characters. -/
theorem noAdjBy_space_joinSpace : ∀ (ws : List (List Char)),
    (∀ w ∈ ws, w ≠ [] ∧ ∀ c ∈ w, isPySpace c = false) →
    noAdjBy isPySpace (joinSpace ws) = true := by
  intro ws
  induction ws with
  | nil => intro _; rfl
  | cons w rest ih =>
    intro h
    obtain ⟨hw, hwc⟩ := h w (List.mem_cons_self w rest)
    cases rest with
    | nil => exact noAdjBy_of_all_false _ w hwc
    | cons v rest' =>
      simp only [joinSpace]
      refine noAdjBy_append_boundary _ w _ (noAdjBy_of_all_false _ w hwc) ?_ ?_
      · refine noAdjBy_cons_intro _ ' ' _ ?_
          (ih (fun u hu => h u (List.mem_cons_of_mem w hu)))
        intro y hy
        have h2 := joinSpace_head_nospace (v :: rest')
          (fun u hu => h u (List.mem_cons_of_mem w hu)) y hy
        simp [h2]
      · intro a b ha hb
        have h2 := hwc a (getLast?_mem w a ha)
        simp [h2]

/-- A space-join of nonempty words that are whitespace-free, allowed, and
free of adjacent dots and bangs is a fixed point of `_preprocess_text`:
every stage of the pipeline leaves it unchanged. -/
theorem preprocess_fixed (ws : List (List Char))
    (hw : ∀ w ∈ ws, w ≠ [] ∧ ∀ c ∈ w, isPySpace c = false)
    (hallow : ∀ w ∈ ws, ∀ c ∈ w, isAllowedChar c = true)
    (hdot : ∀ w ∈ ws, noAdjBy (· == '.') w = true)
    (hbang : ∀ w ∈ ws, noAdjBy (· == '!') w = true) :
    preprocessText (joinSpace ws) = joinSpace ws := by
  have honly : ∀ c ∈ joinSpace ws, isPySpace c = true → c = ' ' := by
    intro c hc hsp
    rcases mem_joinSpace ws c hc with h1 | ⟨w, hw', hcw⟩
    · exact h1
    · rw [(hw w hw').2 c hcw] at hsp
      simp at hsp
  have hallchars : ∀ c ∈ joinSpace ws, isAllowedChar c = true := by
    intro c hc
    rcases mem_joinSpace ws c hc with h1 | ⟨w, hw', hcw⟩
    · rw [h1]; rfl
    · exact hallow w hw' c hcw
  rw [preprocessText,
    stripWs_eq_self _ (joinSpace_head_nospace ws hw) (joinSpace_getLast_nospace ws hw),
    show collapseWs (joinSpace ws) = joinSpace ws from
      (collapseWsAux_eq_self _ honly (noAdjBy_space_joinSpace ws hw)).1,
    stripSpecial_eq_self _ hallchars,
    show squeezeChar '.' (joinSpace ws) = joinSpace ws from
      (squeezeAux_eq_self '.' _ (noAdjBy_joinSpace _ rfl ws hdot)).1,
    show squeezeChar '!' (joinSpace ws) = joinSpace ws from
      (squeezeAux_eq_self '!' _ (noAdjBy_joinSpace _ rfl ws hbang)).1,
    pySplit_joinSpace ws hw]

/-- Claim C9: `_preprocess_text` is idempotent — applying the whitespace
collapse and trim, the allowlist substitution, the punctuation-run
collapsing, and the split/rejoin a second time leaves the output
unchanged. -/
theorem claim9_preprocess_idempotent (s : List Char) :
    preprocessText (preprocessText s) = preprocessText s := by
  have hstages : preprocessText s
      = joinSpace (pySplit (squeezeChar '!' (squeezeChar '.'
          (stripSpecial (collapseWs (stripWs s)))))) := rfl
  rw [hstages]
  apply preprocess_fixed
  · exact pySplitAux_words _ [] (by intro c hc; simp at hc)
  · intro w hw' c hc
    rcases pySplitAux_chars _ [] w hw' c hc with h1 | h1
    · simp at h1
    · exact stripSpecial_allowed _ c
        (mem_squeezeAux '.' _ false c (mem_squeezeAux '!' _ false c h1))
  · intro w hw'
    refine pySplitAux_noAdj _ _ [] ?_ w hw'
    simp only [List.reverse_nil, List.nil_append]
    exact squeezeAux_preserve_noAdj '.' '!' rfl _ false
      (squeezeAux_noAdj_self '.' _ false)
  · intro w hw'
    refine pySplitAux_noAdj _ _ [] ?_ w hw'
    simp only [List.reverse_nil, List.nil_append]
    exact squeezeAux_noAdj_self '!' _ false

end VesselAI
